import Mathlib

/-
Shallow embedding of the fission-codes/go-bloom Bloom-filter library
(bloom.go, hasher.go).  Machine integers (Go uint64) are modelled as Nat
with explicit `% 2 ^ 64` wherever Go wraps; []byte values are lists of
Nat below 256; Go float64 expressions are modelled as real numbers.  The
external bit-vector dependency (github.com/fission-codes/go-bitset) is
not part of this repository's sources, so its operations are modelled
from the specification text.  Go function values compared by pointer
identity are modelled as Nat tokens interpreted through an explicit
environment `env : Nat → α → Nat → Nat`.
-/

namespace GoBloom

/-- Modulus of Go's uint64 arithmetic. -/
def U64 : Nat := 2 ^ 64

/-- Error values of the library.  The three incompatibility errors are
`ERR_INCOMPATIBLE_HASH_FUNCTIONS`, `ERR_INCOMPATIBLE_HASH_COUNT` and
`ERR_INCOMPATIBLE_BIT_COUNT` from bloom.go; `bitsetLengthMismatch` stands
for the external bit-vector's own union/intersect failure (modelled from
the spec: those fail if the two bit vectors differ in length). -/
inductive BloomError where
  | incompatibleHashFunctions
  | incompatibleHashCount
  | incompatibleBitCount
  | bitsetLengthMismatch
deriving DecidableEq, Repr

/-- Modelled from the spec: the external bit vector (go-bitset) holding
`n` addressable bits; the bit at index `i` is bit `i` of `bits`. -/
structure BitSet where
  n : Nat
  bits : Nat
deriving DecidableEq, Repr

/-- Modelled from the spec: `bitset.New(n)` allocates a zeroed bit vector
of length `n` (allocation failure is not representable in this model). -/
def bitsetNew (n : Nat) : BitSet := ⟨n, 0⟩

/-- Modelled from the spec: `Set(i)` sets bit `i`; indices are only
meaningful below `n`. -/
def BitSet.set (bs : BitSet) (i : Nat) : BitSet :=
  if i < bs.n then { bs with bits := bs.bits ||| 2 ^ i } else bs

/-- Modelled from the spec: `Test(i)` reads bit `i`. -/
def BitSet.test (bs : BitSet) (i : Nat) : Bool :=
  bs.bits.testBit i

/-- Modelled from the spec: bit-reversal of one byte, used for the
big-endian bit packing of `Bytes`. -/
def reverse8 (b : Nat) : Nat :=
  128 * ((b >>> 0) % 2) + 64 * ((b >>> 1) % 2) + 32 * ((b >>> 2) % 2) +
    16 * ((b >>> 3) % 2) + 8 * ((b >>> 4) % 2) + 4 * ((b >>> 5) % 2) +
    2 * ((b >>> 6) % 2) + ((b >>> 7) % 2)

/-- Modelled from the spec: pack the low `8 * L` bits of `bits` into `L`
bytes, big-endian bit packing (bit index `8 j + k` of the vector is bit
`7 - k` of byte `j`). -/
def encodeBits (bits : Nat) : Nat → List Nat
  | 0 => []
  | L + 1 => reverse8 (bits % 256) :: encodeBits (bits >>> 8) L

/-- Modelled from the spec: inverse of `encodeBits` on a byte list (each
entry is reduced mod 256, embedding the Go byte type). -/
def decodeBytes : List Nat → Nat
  | [] => 0
  | b :: rest => reverse8 (b % 256) + 256 * decodeBytes rest

/-- Modelled from the spec: `Bytes()` returns the packed byte sequence of
the whole vector, `⌈n/8⌉` bytes. -/
def BitSet.bytes (bs : BitSet) : List Nat :=
  encodeBits bs.bits ((bs.n + 7) / 8)

/-- Modelled from the spec: `bitset.NewFromBytes(n, bytes)` builds a bit
vector of length `n` from packed bytes (`⌈n/8⌉` bytes are consumed). -/
def BitSet.fromBytes (n : Nat) (bytes : List Nat) : BitSet :=
  ⟨n, decodeBytes (bytes.take ((n + 7) / 8))⟩

/-- Modelled from the spec: `Union` bitwise-ORs the other vector into the
receiver; it fails if the two bit vectors differ in length. -/
def BitSet.union (bs other : BitSet) : Except BloomError BitSet :=
  if bs.n = other.n then Except.ok ⟨bs.n, bs.bits ||| other.bits⟩
  else Except.error BloomError.bitsetLengthMismatch

/-- Modelled from the spec: `Intersect` bitwise-ANDs the other vector
into the receiver; it fails if the two bit vectors differ in length. -/
def BitSet.intersect (bs other : BitSet) : Except BloomError BitSet :=
  if bs.n = other.n then Except.ok ⟨bs.n, bs.bits &&& other.bits⟩
  else Except.error BloomError.bitsetLengthMismatch

/-- Helper max from bloom.go (`func max(x, y uint64) uint64`). -/
def maxU (x y : Nat) : Nat :=
  if x > y then x else y

/-- NextPowerOfTwo from bloom.go, on uint64: decrement (with wraparound),
five or-shift spreading steps (1, 2, 4, 8, 16 — the source has no
`i |= i >> 32` step), then increment (with wraparound). -/
def NextPowerOfTwo (i : Nat) : Nat :=
  let i := (i + (U64 - 1)) % U64
  let i := i ||| (i >>> 1)
  let i := i ||| (i >>> 2)
  let i := i ||| (i >>> 4)
  let i := i ||| (i >>> 8)
  let i := i ||| (i >>> 16)
  (i + 1) % U64

/-- Function bitmask from hasher.go: `NextPowerOfTwo(bitCount) - 1` on
uint64 (wraparound subtraction). -/
def bitmask (bitCount : Nat) : Nat :=
  (NextPowerOfTwo bitCount + (U64 - 1)) % U64

/-- Structural floor of log base 2 with an explicit recursion budget;
`floorLog2Aux fuel n` equals `⌊log2 n⌋` whenever `n < 2 ^ fuel`. -/
def floorLog2Aux : Nat → Nat → Nat
  | 0, _ => 0
  | fuel + 1, n => if 2 ≤ n then floorLog2Aux fuel (n / 2) + 1 else 0

/-- Model of the Go expression `uint64(math.Log2(float64(m)))` in
Hasher.Value: the floor of the base-2 logarithm.  The model is exact for
every bitmask below roughly `2 ^ 49` — in particular for every filter
with bitCount ≤ 2^32, the range the shift-amount statements below are
restricted to.  For bitmask = 2^j − 1 with j ≥ 49 the float64
computation instead rounds up to exactly `j` (the deficit of
log2(2^j − 1) below `j` is under half an ulp), so the program's shift is
`j` where this model gives `j − 1`; the statements that quantify beyond
2^32 (termination, bounds, membership) are robust to the shift value:
they never depend on which floor the shift is.  At `m = 0` the Go
conversion of `-Inf` is platform-dependent, but the value is never
consumed because the first window is accepted. -/
def floorLog2 (m : Nat) : Nat :=
  floorLog2Aux 64 m

/-- Hasher state from hasher.go (the hash function is carried as an
identity token interpreted by an environment). -/
structure Hasher where
  bitCount : Nat
  hashCount : Nat
  seed : Nat
  count : Nat
  bitmask : Nat
  function : Nat
deriving DecidableEq, Repr

/-- NewHasher from hasher.go. -/
def NewHasher (bitCount hashCount : Nat) (function : Nat) : Hasher :=
  { bitCount := bitCount, hashCount := hashCount, seed := 0, count := 0,
    bitmask := bitmask bitCount, function := function }

/-- Method Next from hasher.go: `h.count < h.hashCount`. -/
def Hasher.Next (h : Hasher) : Bool :=
  decide (h.count < h.hashCount)

/-- Inner window loop of Hasher.Value
(`for i := uint64(0); i < 64; i += shiftSize`): mask the hash, accept the
index if it is below bitCount, otherwise shift off `s` bits and retry.
The fuel argument only models divergence: 65 units are enough for every
run the loop condition permits when `s ≥ 1`. -/
def windowScan (bitCount bm s : Nat) : Nat → Nat → Nat → Option Nat
  | 0, _, _ => none
  | fuel + 1, hash, i =>
    if i < 64 then
      let index := hash &&& bm
      if index < bitCount then
        some index
      else
        windowScan bitCount bm s fuel (hash >>> s) (i + s)
    else
      none

/-- Method Value from hasher.go: draw a hash at the current seed
(consuming the seed even on rejection), scan its 64 bits in windows of
`shiftSize` bits, and on exhaustion draw a fresh hash.  `vFuel` bounds
the number of hash draws (the Go loop is unbounded); on success it
returns the accepted index and the updated hasher state. -/
def Hasher.Value (env : Nat → α → Nat → Nat) (data : α) :
    Nat → Hasher → Option (Nat × Hasher)
  | 0, _ => none
  | vFuel + 1, h =>
    let s := floorLog2 h.bitmask
    let hash := env h.function data h.seed % U64
    let h' := { h with seed := (h.seed + 1) % U64 }
    match windowScan h.bitCount h.bitmask s 65 hash 0 with
    | some index => some (index, { h' with count := (h'.count + 1) % U64 })
    | none => Hasher.Value env data vFuel h'

/-- Filter record from bloom.go (hash function as identity token). -/
structure Filter where
  bitCount : Nat
  hashCount : Nat
  bitSet : BitSet
  function : Nat
deriving DecidableEq, Repr

/-- NewFilter from bloom.go: clamp both counts to at least 1 and allocate
a zeroed bit vector (the allocation error path of go-bitset is not
representable in the model, so the constructor is total). -/
def NewFilter (bitCount hashCount : Nat) (function : Nat) : Filter :=
  let safeBitCount := maxU 1 bitCount
  let safeHashCount := maxU 1 hashCount
  { bitCount := safeBitCount, hashCount := safeHashCount,
    bitSet := bitsetNew safeBitCount, function := function }

/-- NewFilterFromBloomBytes from bloom.go: same clamping, bit vector
initialised from the caller's packed bytes. -/
def NewFilterFromBloomBytes (bitCount hashCount : Nat) (bloomBytes : List Nat)
    (function : Nat) : Filter :=
  let safeBitCount := maxU 1 bitCount
  let safeHashCount := maxU 1 hashCount
  { bitCount := safeBitCount, hashCount := safeHashCount,
    bitSet := BitSet.fromBytes safeBitCount bloomBytes, function := function }

/-- Accessor BitCount from bloom.go. -/
def Filter.BitCount (f : Filter) : Nat := f.bitCount

/-- Accessor HashCount from bloom.go. -/
def Filter.HashCount (f : Filter) : Nat := f.hashCount

/-- Method Bytes from bloom.go: the packed bytes of the bit vector. -/
def Filter.Bytes (f : Filter) : List Nat := f.bitSet.bytes

/-- Method Copy from bloom.go: rebuild through
`NewFilterFromBloomBytes(f.bitCount, f.hashCount, f.Bytes(), f.function)`. -/
def Filter.Copy (f : Filter) : Filter :=
  NewFilterFromBloomBytes f.bitCount f.hashCount f.Bytes f.function

/-- Loop body of Add from bloom.go: while the hasher has more hashes,
draw the next index and set that bit.  `vFuel` is the per-Value hash-draw
budget and the outer fuel models the (count-bounded) while loop. -/
def addLoop (env : Nat → α → Nat → Nat) (data : α) (vFuel : Nat) :
    Nat → BitSet → Hasher → Option BitSet
  | 0, bits, h => if h.Next then none else some bits
  | fuel + 1, bits, h =>
    if h.Next then
      match Hasher.Value env data vFuel h with
      | none => none
      | some (index, h') => addLoop env data vFuel fuel (bits.set index) h'
    else
      some bits

/-- Method Add from bloom.go: create a hasher over the filter's
parameters and set every produced bit. -/
def Filter.Add (env : Nat → α → Nat → Nat) (data : α) (vFuel lFuel : Nat)
    (f : Filter) : Option Filter :=
  match addLoop env data vFuel lFuel f.bitSet
      (NewHasher f.bitCount f.hashCount f.function) with
  | some bits => some { f with bitSet := bits }
  | none => none

/-- Loop body of Test from bloom.go: while the hasher has more hashes,
test the next index, short-circuiting to `false` on the first unset
bit. -/
def testLoop (env : Nat → α → Nat → Nat) (data : α) (vFuel : Nat) :
    Nat → BitSet → Hasher → Option Bool
  | 0, _, h => if h.Next then none else some true
  | fuel + 1, bits, h =>
    if h.Next then
      match Hasher.Value env data vFuel h with
      | none => none
      | some (index, h') =>
        if bits.test index then testLoop env data vFuel fuel bits h'
        else some false
    else
      some true

/-- Method Test from bloom.go. -/
def Filter.Test (env : Nat → α → Nat → Nat) (data : α) (vFuel lFuel : Nat)
    (f : Filter) : Option Bool :=
  testLoop env data vFuel lFuel f.bitSet
    (NewHasher f.bitCount f.hashCount f.function)

/-- Sequence of Add calls (left to right), used to state properties about
arbitrary later insertions. -/
def addSeq (env : Nat → α → Nat → Nat) (vFuel : Nat) :
    List α → Filter → Option Filter
  | [], f => some f
  | y :: ys, f =>
    match Filter.Add env y vFuel f.hashCount f with
    | some f' => addSeq env vFuel ys f'
    | none => none

/-- Method checkCompatibility from bloom.go: hash-function identity
first, then hash count, then bit count. -/
def Filter.checkCompatibility (f other : Filter) : Option BloomError :=
  if f.function ≠ other.function then some BloomError.incompatibleHashFunctions
  else if f.hashCount ≠ other.hashCount then some BloomError.incompatibleHashCount
  else if f.bitCount ≠ other.bitCount then some BloomError.incompatibleBitCount
  else none

/-- Method Union from bloom.go: on compatibility, OR the other filter's
bit vector into the receiver; the pair returns the Go error value and the
final receiver state. -/
def Filter.Union (f other : Filter) : Option BloomError × Filter :=
  match f.checkCompatibility other with
  | some e => (some e, f)
  | none =>
    match f.bitSet.union other.bitSet with
    | Except.ok bs => (none, { f with bitSet := bs })
    | Except.error e => (some e, f)

/-- Method Intersect from bloom.go: on compatibility, AND the other
filter's bit vector into the receiver. -/
def Filter.Intersect (f other : Filter) : Option BloomError × Filter :=
  match f.checkCompatibility other with
  | some e => (some e, f)
  | none =>
    match f.bitSet.intersect other.bitSet with
    | Except.ok bs => (none, { f with bitSet := bs })
    | Except.error e => (some e, f)

/-- Method FPP from bloom.go, with float64 arithmetic read as real
arithmetic: the source expression is
`Pow(1 - Pow(E, -(((m/n)*Log(2))*(n/m))), (m/n)*Log(2))`
where `m` is the filter's bit count — the filter's hashCount does not
occur in it. -/
noncomputable def Filter.FPP (f : Filter) (n : Nat) : ℝ :=
  (1 - Real.exp (-((((f.bitCount : ℝ) / (n : ℝ)) * Real.log 2) *
      ((n : ℝ) / (f.bitCount : ℝ))))) ^
    (((f.bitCount : ℝ) / (n : ℝ)) * Real.log 2)

/-- Closed-form false-positive probability named by the spec,
`(1 - e^(-k*n/m))^k`, written from the spec's words for comparison with
`Filter.FPP`. -/
noncomputable def specFPPFormula (m k n : Nat) : ℝ :=
  (1 - Real.exp (-(((k : ℝ) * (n : ℝ)) / (m : ℝ)))) ^ (k : ℝ)

/-- Sample hash-function environment used by the concrete witnesses. -/
def envAdd : Nat → Nat → Nat → Nat :=
  fun _ data seed => data + seed

section FloorLog2Lemmas

theorem floorLog2Aux_le {n j : Nat} (fuel : Nat) (h : n < 2 ^ (j + 1)) :
    floorLog2Aux fuel n ≤ j := by
  induction fuel generalizing n j with
  | zero => simp [floorLog2Aux]
  | succ fuel ih =>
    by_cases h2 : 2 ≤ n
    · have hj : 1 ≤ j := by
        by_contra hj0
        have : j = 0 := by omega
        subst this
        simp at h
        omega
      have hdiv : n / 2 < 2 ^ ((j - 1) + 1) := by
        have : (j - 1) + 1 = j := by omega
        rw [this]
        have h2pow : 2 ^ j * 2 = 2 ^ (j + 1) := by rw [pow_succ]
        omega
      have := ih (n := n / 2) (j := j - 1) hdiv
      simp only [floorLog2Aux, if_pos h2]
      omega
    · simp only [floorLog2Aux, if_neg h2]
      omega

theorem pow_floorLog2Aux_le {n : Nat} (fuel : Nat) (h : 1 ≤ n) :
    2 ^ floorLog2Aux fuel n ≤ n := by
  induction fuel generalizing n with
  | zero => simpa [floorLog2Aux]
  | succ fuel ih =>
    by_cases h2 : 2 ≤ n
    · have hdiv : 1 ≤ n / 2 := by omega
      have := ih hdiv
      simp only [floorLog2Aux, if_pos h2, pow_succ]
      omega
    · simp only [floorLog2Aux, if_neg h2]
      omega

theorem lt_pow_floorLog2Aux {n : Nat} (fuel : Nat) (h : n < 2 ^ fuel) :
    n < 2 ^ (floorLog2Aux fuel n + 1) := by
  induction fuel generalizing n with
  | zero =>
    simp only [pow_zero, Nat.lt_one_iff] at h
    subst h
    simp [floorLog2Aux]
  | succ fuel ih =>
    by_cases h2 : 2 ≤ n
    · have hdiv : n / 2 < 2 ^ fuel := by
        have h2pow : 2 ^ fuel * 2 = 2 ^ (fuel + 1) := by rw [pow_succ]
        omega
      have := ih hdiv
      simp only [floorLog2Aux, if_pos h2]
      have hgrow : 2 ^ (floorLog2Aux fuel (n / 2) + 1 + 1) =
          2 ^ (floorLog2Aux fuel (n / 2) + 1) * 2 := by rw [pow_succ]
      omega
    · simp only [floorLog2Aux, if_neg h2]
      omega

theorem floorLog2_pos {m : Nat} (h : 2 ≤ m) : 1 ≤ floorLog2 m := by
  simp only [floorLog2, floorLog2Aux, if_pos h]
  omega

end FloorLog2Lemmas

section BitmaskLemmas

theorem shiftRight_le (x k : Nat) : x >>> k ≤ x := by
  rw [Nat.shiftRight_eq_div_pow]
  exact Nat.div_le_self x (2 ^ k)

theorem or_shift_lt {x n : Nat} (k : Nat) (h : x < 2 ^ n) :
    x ||| (x >>> k) < 2 ^ n :=
  Nat.or_lt_two_pow h (lt_of_le_of_lt (shiftRight_le x k) h)

theorem U64_pos : 0 < U64 := by
  simp [U64]

/-- Decrement step of NextPowerOfTwo: for nonzero uint64 input there is no
wraparound. -/
theorem npot_dec {b : Nat} (hb : 1 ≤ b) (hlt : b < U64) :
    (b + (U64 - 1)) % U64 = b - 1 := by
  have h1 : b + (U64 - 1) = (b - 1) + U64 := by
    have := U64_pos
    omega
  rw [h1, Nat.add_mod_right, Nat.mod_eq_of_lt (by omega)]

/-- Unfolded form of bitmask: for 1 ≤ b < 2^64 the bitmask is exactly the
or-spread of b − 1 (the +1 of NextPowerOfTwo and the −1 of bitmask cancel,
also through the single possible wraparound at the top of the range). -/
theorem bitmask_eq_spread {b : Nat} (hb : 1 ≤ b) (hlt : b < U64) :
    bitmask b =
      (let x := b - 1
       let x := x ||| (x >>> 1)
       let x := x ||| (x >>> 2)
       let x := x ||| (x >>> 4)
       let x := x ||| (x >>> 8)
       x ||| (x >>> 16)) := by
  simp only [bitmask, NextPowerOfTwo, npot_dec hb hlt]
  have hx : b - 1 < 2 ^ 64 := by
    have : U64 = 2 ^ 64 := rfl
    omega
  have hS : (let x := b - 1
      let x := x ||| (x >>> 1)
      let x := x ||| (x >>> 2)
      let x := x ||| (x >>> 4)
      let x := x ||| (x >>> 8)
      x ||| (x >>> 16)) < 2 ^ 64 := by
    exact or_shift_lt 16 (or_shift_lt 8 (or_shift_lt 4 (or_shift_lt 2
      (or_shift_lt 1 hx))))
  set S := (let x := b - 1
      let x := x ||| (x >>> 1)
      let x := x ||| (x >>> 2)
      let x := x ||| (x >>> 4)
      let x := x ||| (x >>> 8)
      x ||| (x >>> 16)) with hSdef
  have hU : U64 = 2 ^ 64 := rfl
  rcases Nat.lt_or_ge (S + 1) U64 with hcase | hcase
  · rw [Nat.mod_eq_of_lt hcase]
    have h2 : S + 1 + (U64 - 1) = S + U64 := by
      have := U64_pos
      omega
    rw [h2, Nat.add_mod_right, Nat.mod_eq_of_lt (by omega)]
  · have hSeq : S + 1 = U64 := by omega
    rw [hSeq, Nat.mod_self, Nat.zero_add, Nat.mod_eq_of_lt (by omega)]
    omega

theorem bitmask_lt_pow {b : Nat} (hb : 2 ≤ b) (hlt : b < U64) :
    bitmask b < 2 ^ (floorLog2 (b - 1) + 1) := by
  have hx : b - 1 < 2 ^ 64 := by
    have : U64 = 2 ^ 64 := rfl
    omega
  have hxp : b - 1 < 2 ^ (floorLog2 (b - 1) + 1) :=
    lt_pow_floorLog2Aux 64 hx
  rw [bitmask_eq_spread (by omega) hlt]
  exact or_shift_lt 16 (or_shift_lt 8 (or_shift_lt 4 (or_shift_lt 2
    (or_shift_lt 1 hxp))))

theorem testBit_floorLog2 {x : Nat} (h1 : 1 ≤ x) (h2 : x < 2 ^ 64) :
    x.testBit (floorLog2 x) = true := by
  have hle : 2 ^ floorLog2 x ≤ x := pow_floorLog2Aux_le 64 h1
  have hlt : x < 2 ^ (floorLog2 x + 1) := lt_pow_floorLog2Aux 64 h2
  have hdiv : x / 2 ^ floorLog2 x = 1 := by
    have hpow : 2 ^ (floorLog2 x + 1) = 2 ^ floorLog2 x * 2 := by rw [pow_succ]
    have hp := Nat.pos_pow_of_pos (floorLog2 x) (by omega : 0 < 2)
    have hlow : 1 ≤ x / 2 ^ floorLog2 x := (Nat.one_le_div_iff hp).2 hle
    have hhigh : x / 2 ^ floorLog2 x < 2 := by
      rw [Nat.div_lt_iff_lt_mul hp]
      omega
    omega
  rw [Nat.testBit_to_div_mod, hdiv]
  decide

theorem bitmask_pos {b : Nat} (hb : 2 ≤ b) (hlt : b < U64) :
    1 ≤ bitmask b := by
  have hx1 : 1 ≤ b - 1 := by omega
  have hx2 : b - 1 < 2 ^ 64 := by
    have : U64 = 2 ^ 64 := rfl
    omega
  have htop : (b - 1).testBit (floorLog2 (b - 1)) = true :=
    testBit_floorLog2 hx1 hx2
  rw [bitmask_eq_spread (by omega) hlt]
  by_contra hzero
  have h0 : (let x := b - 1
      let x := x ||| (x >>> 1)
      let x := x ||| (x >>> 2)
      let x := x ||| (x >>> 4)
      let x := x ||| (x >>> 8)
      x ||| (x >>> 16)) = 0 := by omega
  have : (let x := b - 1
      let x := x ||| (x >>> 1)
      let x := x ||| (x >>> 2)
      let x := x ||| (x >>> 4)
      let x := x ||| (x >>> 8)
      x ||| (x >>> 16)).testBit (floorLog2 (b - 1)) = true := by
    simp only [Nat.testBit_or, htop, Bool.true_or]
  rw [h0] at this
  simp [Nat.zero_testBit] at this

end BitmaskLemmas

section ValueLemmas

variable {α : Type}

theorem windowScan_lt {b m s : Nat} :
    ∀ {fuel hash i idx : Nat}, windowScan b m s fuel hash i = some idx →
      idx < b := by
  intro fuel
  induction fuel with
  | zero => intro hash i idx h; simp [windowScan] at h
  | succ fuel ih =>
    intro hash i idx h
    by_cases hi : i < 64
    · simp only [windowScan, if_pos hi] at h
      by_cases hacc : hash &&& m < b
      · simp only [if_pos hacc, Option.some_inj] at h
        omega
      · simp only [if_neg hacc] at h
        exact ih h
    · simp [windowScan, if_neg hi] at h

/-- Acceptance on the first window. -/
theorem windowScan_accept {b m s fuel hash i : Nat} (hi : i < 64)
    (hacc : hash &&& m < b) :
    windowScan b m s (fuel + 1) hash i = some (hash &&& m) := by
  simp [windowScan, if_pos hi, if_pos hacc]

/-- Core of the termination argument: with window step `s ≥ 1` and
`2 ^ s < bitCount`, every scan over the 64 hash bits accepts before the
loop condition fails, because once at most `s` bits remain the masked
window is below `2 ^ s` and hence in bounds. -/
theorem windowScan_some {b m s : Nat} (hs : 1 ≤ s) (hsb : 2 ^ s < b) :
    ∀ fuel i hash, i < 64 → hash < 2 ^ (64 - i) → 64 - i ≤ fuel →
      ∃ idx, windowScan b m s fuel hash i = some idx := by
  intro fuel
  induction fuel with
  | zero => intro i hash hi _ hfuel; omega
  | succ fuel ih =>
    intro i hash hi hhash hfuel
    by_cases hacc : hash &&& m < b
    · exact ⟨hash &&& m, windowScan_accept hi hacc⟩
    · have hhb : b ≤ hash := le_trans (le_of_not_lt hacc) Nat.and_le_left
      have hsgap : 2 ^ s < 2 ^ (64 - i) := by omega
      have hslt : s < 64 - i :=
        (Nat.pow_lt_pow_iff_right (by omega : 1 < 2)).1 hsgap
      have hi' : i + s < 64 := by omega
      have hhash' : hash >>> s < 2 ^ (64 - (i + s)) := by
        rw [Nat.shiftRight_eq_div_pow]
        have hp : 0 < 2 ^ s := Nat.pos_pow_of_pos s (by omega)
        rw [Nat.div_lt_iff_lt_mul hp]
        have : 2 ^ (64 - (i + s)) * 2 ^ s = 2 ^ (64 - i) := by
          rw [← pow_add]
          congr 1
          omega
        omega
      obtain ⟨idx, hidx⟩ := ih (i + s) (hash >>> s) hi' hhash' (by omega)
      exact ⟨idx, by simp only [windowScan, if_pos hi, if_neg hacc]; exact hidx⟩

/-- A Value call with one unit of hash fuel always succeeds for a hasher
over a valid filter geometry, and it advances seed and count by exactly
one: the Go rejection loop never needs a second hash draw. -/
theorem Value_succeeds (env : Nat → α → Nat → Nat) (data : α) (h : Hasher)
    (hb1 : 1 ≤ h.bitCount) (hb2 : h.bitCount < U64)
    (hm : h.bitmask = bitmask h.bitCount) :
    ∃ idx, Hasher.Value env data 1 h =
        some (idx, { h with
          seed := (h.seed + 1) % U64
          count := (h.count + 1) % U64 }) ∧
      idx < h.bitCount := by
  have hhash : env h.function data h.seed % U64 < 2 ^ 64 := by
    have : U64 = 2 ^ 64 := rfl
    have := Nat.mod_lt (env h.function data h.seed) U64_pos
    omega
  have hscan : ∃ idx, windowScan h.bitCount h.bitmask
      (floorLog2 h.bitmask) 65 (env h.function data h.seed % U64) 0 =
        some idx := by
    by_cases hone : h.bitCount = 1
    · have hm0 : h.bitmask = 0 := by rw [hm, hone]; decide
      refine ⟨env h.function data h.seed % U64 &&& h.bitmask, ?_⟩
      exact windowScan_accept (by omega)
        (by rw [hm0]; simp [Nat.and_zero]; omega)
    · have hb2' : 2 ≤ h.bitCount := by omega
      by_cases hmsmall : h.bitmask ≤ 1
      · refine ⟨env h.function data h.seed % U64 &&& h.bitmask, ?_⟩
        refine windowScan_accept (by omega) ?_
        have := Nat.and_le_right
          (n := env h.function data h.seed % U64) (m := h.bitmask)
        omega
      · have hs1 : 1 ≤ floorLog2 h.bitmask := floorLog2_pos (by omega)
        have hp1 : 2 ^ floorLog2 (h.bitCount - 1) ≤ h.bitCount - 1 :=
          pow_floorLog2Aux_le 64 (by omega)
        have hmlt : h.bitmask < 2 ^ (floorLog2 (h.bitCount - 1) + 1) := by
          rw [hm]
          exact bitmask_lt_pow hb2' hb2
        have hsle : floorLog2 h.bitmask ≤ floorLog2 (h.bitCount - 1) :=
          floorLog2Aux_le 64 hmlt
        have hsb : 2 ^ floorLog2 h.bitmask < h.bitCount := by
          have := Nat.pow_le_pow_right (by omega : 1 ≤ 2) hsle
          omega
        exact windowScan_some hs1 hsb 65 0
          (env h.function data h.seed % U64) (by omega) (by simpa) (by omega)
  obtain ⟨idx, hidx⟩ := hscan
  refine ⟨idx, ?_, windowScan_lt hidx⟩
  simp only [Hasher.Value, hidx]

/-- In-bounds property of every accepted index (claim C4 core): whatever
the fuel, a returned index is strictly below the hasher's bitCount. -/
theorem Value_lt {env : Nat → α → Nat → Nat} {data : α} :
    ∀ {vFuel : Nat} {h : Hasher} {idx : Nat} {h' : Hasher},
      Hasher.Value env data vFuel h = some (idx, h') → idx < h.bitCount := by
  intro vFuel
  induction vFuel with
  | zero => intro h idx h' hv; simp [Hasher.Value] at hv
  | succ vFuel ih =>
    intro h idx h' hv
    simp only [Hasher.Value] at hv
    rcases hscan : windowScan h.bitCount h.bitmask (floorLog2 h.bitmask) 65
        (env h.function data h.seed % U64) 0 with _ | idx0
    · rw [hscan] at hv
      have hv' : Hasher.Value env data vFuel
          { h with seed := (h.seed + 1) % U64 } = some (idx, h') := hv
      simpa using ih hv'
    · rw [hscan] at hv
      simp only [Option.some_inj, Prod.mk.injEq] at hv
      have := windowScan_lt hscan
      omega

end ValueLemmas

section LoopLemmas

variable {α : Type}

theorem set_n (bs : BitSet) (i : Nat) : (bs.set i).n = bs.n := by
  simp only [BitSet.set]
  split <;> rfl

theorem set_test_mono {bs : BitSet} {j : Nat} (i : Nat)
    (h : bs.test j = true) : (bs.set i).test j = true := by
  simp only [BitSet.set, BitSet.test] at *
  split
  · simp [Nat.testBit_or, h]
  · exact h

theorem set_test_self {bs : BitSet} {i : Nat} (hi : i < bs.n) :
    (bs.set i).test i = true := by
  simp only [BitSet.set, BitSet.test, if_pos hi]
  simp [Nat.testBit_or]

theorem addLoop_mono {env : Nat → α → Nat → Nat} {data : α} {vF : Nat} :
    ∀ {fuel : Nat} {bits : BitSet} {h : Hasher} {bits' : BitSet},
      addLoop env data vF fuel bits h = some bits' →
      (∀ j, bits.test j = true → bits'.test j = true) ∧ bits'.n = bits.n := by
  intro fuel
  induction fuel with
  | zero =>
    intro bits h bits' hadd
    simp only [addLoop] at hadd
    split at hadd
    · simp at hadd
    · simp only [Option.some_inj] at hadd
      subst hadd
      exact ⟨fun j hj => hj, rfl⟩
  | succ fuel ih =>
    intro bits h bits' hadd
    simp only [addLoop] at hadd
    split at hadd
    · rcases hval : Hasher.Value env data vF h with _ | p
      · rw [hval] at hadd; simp at hadd
      · rcases p with ⟨idx, h₂⟩
        rw [hval] at hadd
        simp only at hadd
        obtain ⟨hmono, hn⟩ := ih hadd
        refine ⟨fun j hj => hmono j (set_test_mono idx hj), ?_⟩
        rw [hn, set_n]
    · simp only [Option.some_inj] at hadd
      subst hadd
      exact ⟨fun j hj => hj, rfl⟩

theorem addLoop_some (env : Nat → α → Nat → Nat) (data : α) :
    ∀ (fuel : Nat) (bits : BitSet) (h : Hasher),
      h.hashCount ≤ h.count + fuel → 1 ≤ h.bitCount → h.bitCount < U64 →
      h.hashCount < U64 → h.bitmask = bitmask h.bitCount →
      ∃ bits', addLoop env data 1 fuel bits h = some bits' := by
  intro fuel
  induction fuel with
  | zero =>
    intro bits h hcnt _ _ _ _
    refine ⟨bits, ?_⟩
    have : h.Next = false := by
      simp only [Hasher.Next, decide_eq_false_iff_not]
      omega
    simp [addLoop, this]
  | succ fuel ih =>
    intro bits h hcnt hb1 hb2 hhc hm
    by_cases hnext : h.count < h.hashCount
    · obtain ⟨idx, hval, _⟩ := Value_succeeds env data h hb1 hb2 hm
      have hcount : (h.count + 1) % U64 = h.count + 1 :=
        Nat.mod_eq_of_lt (by omega)
      obtain ⟨bits', hrec⟩ := ih (bits.set idx)
        { h with
          seed := (h.seed + 1) % U64
          count := (h.count + 1) % U64 }
        (by simp only [hcount]; omega) (by simpa) (by simpa) (by simpa)
        (by simpa)
      refine ⟨bits', ?_⟩
      have hnextb : h.Next = true := by
        simp only [Hasher.Next, decide_eq_true_eq]
        omega
      simp only [addLoop, hnextb, if_pos, hval]
      exact hrec
    · refine ⟨bits, ?_⟩
      have : h.Next = false := by
        simp only [Hasher.Next, decide_eq_false_iff_not]
        omega
      simp [addLoop, this]

theorem testLoop_some (env : Nat → α → Nat → Nat) (data : α) :
    ∀ (fuel : Nat) (bits : BitSet) (h : Hasher),
      h.hashCount ≤ h.count + fuel → 1 ≤ h.bitCount → h.bitCount < U64 →
      h.hashCount < U64 → h.bitmask = bitmask h.bitCount →
      ∃ b, testLoop env data 1 fuel bits h = some b := by
  intro fuel
  induction fuel with
  | zero =>
    intro bits h hcnt _ _ _ _
    refine ⟨true, ?_⟩
    have : h.Next = false := by
      simp only [Hasher.Next, decide_eq_false_iff_not]
      omega
    simp [testLoop, this]
  | succ fuel ih =>
    intro bits h hcnt hb1 hb2 hhc hm
    by_cases hnext : h.count < h.hashCount
    · obtain ⟨idx, hval, _⟩ := Value_succeeds env data h hb1 hb2 hm
      have hcount : (h.count + 1) % U64 = h.count + 1 :=
        Nat.mod_eq_of_lt (by omega)
      have hnextb : h.Next = true := by
        simp only [Hasher.Next, decide_eq_true_eq]
        omega
      by_cases htest : bits.test idx = true
      · obtain ⟨b, hrec⟩ := ih bits
          { h with
            seed := (h.seed + 1) % U64
            count := (h.count + 1) % U64 }
          (by simp only [hcount]; omega) (by simpa) (by simpa) (by simpa)
          (by simpa)
        refine ⟨b, ?_⟩
        simp only [testLoop, hnextb, if_pos, hval, htest, if_true]
        exact hrec
      · refine ⟨false, ?_⟩
        simp only [testLoop, hnextb, if_pos, hval]
        simp [htest]
    · refine ⟨true, ?_⟩
      have : h.Next = false := by
        simp only [Hasher.Next, decide_eq_false_iff_not]
        omega
      simp [testLoop, this]

theorem testLoop_mono {env : Nat → α → Nat → Nat} {data : α} {vF : Nat} :
    ∀ {fuel : Nat} {bits bits₂ : BitSet} {h : Hasher},
      (∀ j, bits.test j = true → bits₂.test j = true) →
      testLoop env data vF fuel bits h = some true →
      testLoop env data vF fuel bits₂ h = some true := by
  intro fuel
  induction fuel with
  | zero =>
    intro bits bits₂ h _ htl
    by_cases hb : h.Next = true
    · simp [testLoop, hb] at htl
    · simp [testLoop, hb] at htl ⊢
  | succ fuel ih =>
    intro bits bits₂ h hsub htl
    by_cases hb : h.Next = true
    · simp only [testLoop, hb, if_true] at htl ⊢
      rcases hval : Hasher.Value env data vF h with _ | p
      · rw [hval] at htl
        simp at htl
      · rcases p with ⟨idx, h₂⟩
        rw [hval] at htl
        simp only at htl ⊢
        by_cases htest : bits.test idx = true
        · rw [if_pos htest] at htl
          rw [if_pos (hsub idx htest)]
          exact ih hsub htl
        · rw [if_neg htest] at htl
          simp at htl
    · simp only [testLoop, if_neg hb]

theorem testLoop_after_addLoop (env : Nat → α → Nat → Nat) (data : α) :
    ∀ (fuel : Nat) (bits : BitSet) (h : Hasher) (bits' : BitSet),
      1 ≤ h.bitCount → h.bitCount < U64 → h.hashCount < U64 →
      h.bitmask = bitmask h.bitCount → bits.n = h.bitCount →
      addLoop env data 1 fuel bits h = some bits' →
      testLoop env data 1 fuel bits' h = some true := by
  intro fuel
  induction fuel with
  | zero =>
    intro bits h bits' _ _ _ _ _ hadd
    simp only [addLoop] at hadd
    simp only [testLoop]
    by_cases hb : h.Next = true
    · rw [if_pos hb] at hadd; simp at hadd
    · rw [if_neg hb]
  | succ fuel ih =>
    intro bits h bits' hb1 hb2 hhc hm hn hadd
    simp only [addLoop] at hadd
    simp only [testLoop]
    by_cases hnextp : h.Next = true
    · rw [if_pos hnextp] at hadd
      rw [if_pos hnextp]
      obtain ⟨idx, hval, hidx⟩ := Value_succeeds env data h hb1 hb2 hm
      rw [hval] at hadd
      simp only at hadd
      rw [hval]
      simp only
      have hbitset : (bits.set idx).test idx = true :=
        set_test_self (by omega)
      have hmono := (addLoop_mono hadd).1
      rw [if_pos (hmono idx hbitset)]
      exact ih (bits.set idx) _ bits' (by simpa) (by simpa) (by simpa)
        (by simpa) (by rw [set_n]; simpa) hadd
    · rw [if_neg hnextp] at hadd
      rw [if_neg hnextp]

end LoopLemmas

section FilterLemmas

variable {α : Type}

theorem maxU_one_le (x : Nat) : 1 ≤ maxU 1 x := by
  simp only [maxU]
  split <;> omega

theorem maxU_eq_max (x y : Nat) : maxU x y = max x y := by
  simp only [maxU]
  split <;> omega

theorem maxU_one_lt_U64 {x : Nat} (h : x < U64) : maxU 1 x < U64 := by
  have h1 : (1 : Nat) < U64 := by norm_num [U64]
  simp only [maxU]
  split <;> omega

theorem Add_inv {env : Nat → α → Nat → Nat} {data : α} {vF lF : Nat}
    {f f' : Filter} (h : Filter.Add env data vF lF f = some f') :
    addLoop env data vF lF f.bitSet
        (NewHasher f.bitCount f.hashCount f.function) = some f'.bitSet ∧
      f'.bitCount = f.bitCount ∧ f'.hashCount = f.hashCount ∧
      f'.function = f.function := by
  simp only [Filter.Add] at h
  rcases haddl : addLoop env data vF lF f.bitSet
      (NewHasher f.bitCount f.hashCount f.function) with _ | bits
  · rw [haddl] at h
    simp at h
  · rw [haddl] at h
    simp only [Option.some_inj] at h
    subst h
    exact ⟨rfl, rfl, rfl, rfl⟩

theorem Add_some (env : Nat → α → Nat → Nat) (data : α) (f : Filter)
    (hb1 : 1 ≤ f.bitCount) (hb2 : f.bitCount < U64) (hhc : f.hashCount < U64) :
    ∃ f', Filter.Add env data 1 f.hashCount f = some f' := by
  obtain ⟨bits', h⟩ := addLoop_some env data f.hashCount f.bitSet
    (NewHasher f.bitCount f.hashCount f.function)
    (by simp [NewHasher]) (by simpa [NewHasher]) (by simpa [NewHasher])
    (by simpa [NewHasher]) (by simp [NewHasher])
  exact ⟨{ f with bitSet := bits' }, by simp [Filter.Add, h]⟩

theorem addSeq_some (env : Nat → α → Nat → Nat) :
    ∀ (ys : List α) (f : Filter), 1 ≤ f.bitCount → f.bitCount < U64 →
      f.hashCount < U64 →
      ∃ f₂, addSeq env 1 ys f = some f₂ ∧ f₂.bitCount = f.bitCount ∧
        f₂.hashCount = f.hashCount ∧ f₂.function = f.function ∧
        f₂.bitSet.n = f.bitSet.n ∧
        ∀ j, f.bitSet.test j = true → f₂.bitSet.test j = true := by
  intro ys
  induction ys with
  | nil =>
    intro f hb1 hb2 hhc
    exact ⟨f, rfl, rfl, rfl, rfl, rfl, fun j hj => hj⟩
  | cons y ys ih =>
    intro f hb1 hb2 hhc
    obtain ⟨f₁, hAdd⟩ := Add_some env y f hb1 hb2 hhc
    obtain ⟨haddl, hbc, hhcq, hfn⟩ := Add_inv hAdd
    obtain ⟨hmono, hn⟩ := addLoop_mono haddl
    obtain ⟨f₂, hSeq, h2bc, h2hc, h2fn, h2n, h2mono⟩ :=
      ih f₁ (by omega) (by omega) (by omega)
    refine ⟨f₂, ?_, by omega, by omega, by rw [h2fn, hfn], ?_, ?_⟩
    · simp only [addSeq, hAdd]
      exact hSeq
    · rw [h2n, hn]
    · intro j hj
      exact h2mono j (hmono j hj)

end FilterLemmas

section PowerOfTwoHelpers

theorem allOnes_or_shift (j k : Nat) :
    (2 ^ j - 1) ||| ((2 ^ j - 1) >>> k) = 2 ^ j - 1 := by
  apply Nat.eq_of_testBit_eq
  intro i
  simp only [Nat.testBit_or, Nat.testBit_shiftRight, Nat.testBit_two_pow_sub_one]
  by_cases hi : i < j
  · simp [hi]
  · simp [hi, show ¬(k + i < j) by omega]

theorem npot_pow {j : Nat} (hj : j ≤ 63) : NextPowerOfTwo (2 ^ j) = 2 ^ j := by
  have h1 : 1 ≤ 2 ^ j := Nat.one_le_two_pow
  have h2 : 2 ^ j < U64 := by
    have : (2 : Nat) ^ j < 2 ^ 64 :=
      Nat.pow_lt_pow_right (by omega) (by omega)
    simpa [U64] using this
  simp only [NextPowerOfTwo, npot_dec h1 h2]
  rw [allOnes_or_shift j 1, allOnes_or_shift j 2, allOnes_or_shift j 4,
    allOnes_or_shift j 8, allOnes_or_shift j 16]
  have h3 : 2 ^ j - 1 + 1 = 2 ^ j := by omega
  rw [h3, Nat.mod_eq_of_lt h2]

theorem bitmask_pow {j : Nat} (hj : j ≤ 63) : bitmask (2 ^ j) = 2 ^ j - 1 := by
  have h1 : 1 ≤ 2 ^ j := Nat.one_le_two_pow
  have h2 : 2 ^ j < U64 := by
    have : (2 : Nat) ^ j < 2 ^ 64 :=
      Nat.pow_lt_pow_right (by omega) (by omega)
    simpa [U64] using this
  simp only [bitmask, npot_pow hj, npot_dec h1 h2]

end PowerOfTwoHelpers

section Claims1

variable {α : Type}

/-- Claim C1 — no false negatives: for every filter geometry
(bitCount ≥ 1 after clamping, any hashCount, bit vector of matching
length), every hash function (environment and token) and every item `x`,
an Add of `x` succeeds, any sequence of later Adds succeeds, and Test of
`x` afterwards returns `true`: Add only ever sets bits, and Test re-draws
exactly the indices Add set. -/
theorem c1_no_false_negatives (env : Nat → α → Nat → Nat) (f : Filter)
    (x : α) (ys : List α) (hb1 : 1 ≤ f.bitCount) (hb2 : f.bitCount < U64)
    (hhc : f.hashCount < U64) (hn : f.bitSet.n = f.bitCount) :
    ((Filter.Add env x 1 f.hashCount f).bind (addSeq env 1 ys)).bind
        (fun f₂ => Filter.Test env x 1 f₂.hashCount f₂) = some true := by
  obtain ⟨f₁, hAdd⟩ := Add_some env x f hb1 hb2 hhc
  obtain ⟨haddl, hbc, hhcq, hfn⟩ := Add_inv hAdd
  obtain ⟨hmono1, hn1⟩ := addLoop_mono haddl
  obtain ⟨f₂, hSeq, h2bc, h2hc, h2fn, h2n, h2mono⟩ :=
    addSeq_some env ys f₁ (by omega) (by omega) (by omega)
  rw [hAdd]
  simp only [Option.some_bind]
  rw [hSeq]
  simp only [Option.some_bind]
  simp only [Filter.Test]
  rw [h2bc, hbc, h2hc, hhcq, h2fn, hfn]
  have htl := testLoop_after_addLoop env x f.hashCount f.bitSet
    (NewHasher f.bitCount f.hashCount f.function) f₁.bitSet
    (by simpa [NewHasher]) (by simpa [NewHasher]) (by simpa [NewHasher])
    (by simp [NewHasher]) (by simpa [NewHasher]) haddl
  exact testLoop_mono h2mono htl

/-- Witness for C1 at a concrete non-power-of-two filter: a 9-bit,
2-hash filter over the additive sample environment, item 5, one later
insertion of 7. -/
theorem c1_no_false_negatives_witness :
    ((Filter.Add envAdd (5 : Nat) 1 (NewFilter 9 2 0).hashCount
        (NewFilter 9 2 0)).bind (addSeq envAdd 1 [7])).bind
      (fun f₂ => Filter.Test envAdd (5 : Nat) 1 f₂.hashCount f₂) =
        some true :=
  c1_no_false_negatives envAdd (NewFilter 9 2 0) 5 [7] (by decide)
    (by decide) (by decide) (by decide)

/-- Claim C4 — every index the generator returns is in bounds: whatever
the hash draw budget, the hasher state and the environment, a returned
index is strictly below the hasher's bitCount, because every return site
of Value is guarded by the bounds check; hence Add and Test only ever
pass in-range indices to the bit vector. -/
theorem c4_value_in_bounds (env : Nat → α → Nat → Nat) (data : α)
    (vFuel : Nat) (h : Hasher) (idx : Nat) (h' : Hasher)
    (hv : Hasher.Value env data vFuel h = some (idx, h')) :
    idx < h.bitCount :=
  Value_lt hv

/-- Witness for C4: the 9-bit hasher over the additive environment
returns index 5 for item 5 at seed 0, and 5 is below 9. -/
theorem c4_value_in_bounds_witness : (5 : Nat) < (NewHasher 9 3 0).bitCount :=
  c4_value_in_bounds envAdd 5 1 (NewHasher 9 3 0) 5
    ⟨9, 3, 1, 1, 15, 0⟩ (by decide)

/-- Claim C7 — termination and power-of-two exactness: for every filter
geometry with bitCount ≥ 1, Add and Test terminate (the stated fuels,
one hash draw per index and hashCount loop rounds, suffice); and when
bitCount is an exact power of two the very first window of the very
first hash draw is accepted, so each Value call performs exactly one
hash evaluation and advances the seed by exactly one — over a whole Add
or full Test this gives exactly hashCount evaluations with seeds
0 … hashCount − 1. -/
theorem c7_termination (env : Nat → α → Nat → Nat) (data : α) (f : Filter)
    (hb1 : 1 ≤ f.bitCount) (hb2 : f.bitCount < U64) (hhc : f.hashCount < U64) :
    (∃ f', Filter.Add env data 1 f.hashCount f = some f') ∧
    (∃ b, Filter.Test env data 1 f.hashCount f = some b) ∧
    (∀ j : Nat, f.bitCount = 2 ^ j →
      ∀ h : Hasher, h.bitCount = f.bitCount → h.bitmask = bitmask f.bitCount →
        ∀ vFuel : Nat,
          Hasher.Value env data (vFuel + 1) h =
            some (env h.function data h.seed % U64 &&& (f.bitCount - 1),
              { h with
                seed := (h.seed + 1) % U64
                count := (h.count + 1) % U64 })) := by
  refine ⟨Add_some env data f hb1 hb2 hhc, ?_, ?_⟩
  · simp only [Filter.Test]
    exact testLoop_some env data f.hashCount f.bitSet
      (NewHasher f.bitCount f.hashCount f.function)
      (by simp [NewHasher]) (by simpa [NewHasher]) (by simpa [NewHasher])
      (by simpa [NewHasher]) (by simp [NewHasher])
  · intro j hpow h hbc hbm vFuel
    have hj : j ≤ 63 := by
      by_contra hj'
      have h64 : (64 : Nat) ≤ j := by omega
      have : (2 : Nat) ^ 64 ≤ 2 ^ j := Nat.pow_le_pow_right (by omega) h64
      have : f.bitCount ≥ 2 ^ 64 := by omega
      have : U64 = 2 ^ 64 := rfl
      omega
    have hm2 : h.bitmask = 2 ^ j - 1 := by
      rw [hbm, hpow, bitmask_pow hj]
    have hpos : 1 ≤ 2 ^ j := Nat.one_le_two_pow
    have hacc : env h.function data h.seed % U64 &&& h.bitmask < h.bitCount := by
      have hle : env h.function data h.seed % U64 &&& h.bitmask ≤ h.bitmask :=
        Nat.and_le_right
      rw [hm2] at hle
      rw [hbc, hpow, hm2]
      omega
    simp only [Hasher.Value]
    rw [windowScan_accept (by omega) hacc]
    simp only
    rw [hm2, hpow]

/-- Witness for C7 at the power-of-two filter with 8 bits and 3 hashes
over the additive sample environment. -/
theorem c7_termination_witness :
    (∃ f', Filter.Add envAdd (0 : Nat) 1 (NewFilter 8 3 0).hashCount
        (NewFilter 8 3 0) = some f') ∧
    (∃ b, Filter.Test envAdd (0 : Nat) 1 (NewFilter 8 3 0).hashCount
        (NewFilter 8 3 0) = some b) ∧
    (∀ j : Nat, (NewFilter 8 3 0).bitCount = 2 ^ j →
      ∀ h : Hasher, h.bitCount = (NewFilter 8 3 0).bitCount →
        h.bitmask = bitmask (NewFilter 8 3 0).bitCount →
        ∀ vFuel : Nat,
          Hasher.Value envAdd (0 : Nat) (vFuel + 1) h =
            some (envAdd h.function 0 h.seed % U64 &&&
                ((NewFilter 8 3 0).bitCount - 1),
              { h with
                seed := (h.seed + 1) % U64
                count := (h.count + 1) % U64 })) :=
  c7_termination envAdd 0 (NewFilter 8 3 0) (by decide) (by decide) (by decide)

/-- Claim C10 — a freshly constructed filter reports nothing as present:
Test on any item over any environment returns `false` on a filter just
built by NewFilter, because the first drawn index always hits an unset
bit of the zeroed vector. -/
theorem c10_fresh_filter_tests_false (env : Nat → α → Nat → Nat)
    (bc hc fnTok : Nat) (data : α) (hb : bc < U64) :
    Filter.Test env data 1 (NewFilter bc hc fnTok).hashCount
      (NewFilter bc hc fnTok) = some false := by
  simp only [Filter.Test, NewFilter, bitsetNew]
  obtain ⟨k, hk⟩ : ∃ k, maxU 1 hc = k + 1 := by
    have := maxU_one_le hc
    exact ⟨maxU 1 hc - 1, by omega⟩
  rw [hk]
  have hnextb : Hasher.Next (NewHasher (maxU 1 bc) (k + 1) fnTok) = true := by
    simp [Hasher.Next, NewHasher]
  obtain ⟨idx, hval, hidx⟩ := Value_succeeds env data
    (NewHasher (maxU 1 bc) (k + 1) fnTok)
    (by simpa [NewHasher] using maxU_one_le bc)
    (by simpa [NewHasher] using maxU_one_lt_U64 hb)
    (by simp [NewHasher])
  have hk' : NewHasher (maxU 1 bc) (maxU 1 hc) fnTok =
      NewHasher (maxU 1 bc) (k + 1) fnTok := by rw [hk]
  simp only [testLoop, hk', hnextb, if_pos, hval]
  simp [BitSet.test, Nat.zero_testBit]

/-- Witness for C10: the fresh 9-bit, 3-hash filter over the additive
sample environment reports item 0 as absent. -/
theorem c10_fresh_filter_tests_false_witness :
    Filter.Test envAdd (0 : Nat) 1 (NewFilter 9 3 0).hashCount
      (NewFilter 9 3 0) = some false :=
  c10_fresh_filter_tests_false envAdd 9 3 0 0 (by decide)

end Claims1

section Claims2

/-- Counterexample to claim C2 as stated: at bitCount 9 the bitmask is
15, so the spec's formula log2(bitmask + 1) gives 4, but the computed
shift amount — the floor of log2 of the bitmask itself — is 3. -/
theorem c2_shift_size_counterexample :
    bitmask 9 + 1 = 2 ^ 4 ∧ floorLog2 (bitmask 9) = 3 ∧
      floorLog2 (bitmask 9) ≠ 4 := by
  decide

/-- Claim C2 as amended: the per-window shift amount used by Value is
the floor of log2 of the bitmask — characterised by
2^shiftSize ≤ bitmask < 2^(shiftSize+1) — i.e. one less than the number
of bits needed to represent indices up to the bitmask, for every
bitCount with 2 ≤ bitCount ≤ 2^32.  The restriction marks where the
model of the float computation is exact: in this range the bitmask stays
below 2^33, far under the ≈2^49 threshold past which float64 Log2 of an
all-ones bitmask rounds up to the next integer and the program's shift
becomes floor + 1. -/
theorem c2_shift_size_amended (b : Nat) (hb : 2 ≤ b)
    (hsize : b ≤ 2 ^ 32) :
    2 ^ floorLog2 (bitmask b) ≤ bitmask b ∧
      bitmask b < 2 ^ (floorLog2 (bitmask b) + 1) := by
  have hlt : b < U64 := by
    have hp : (2 : Nat) ^ 32 < 2 ^ 64 := by norm_num
    have hU : U64 = 2 ^ 64 := rfl
    omega
  have h1 : 1 ≤ bitmask b := bitmask_pos hb hlt
  have h2 : bitmask b < 2 ^ 64 := by
    have : bitmask b < U64 := Nat.mod_lt _ U64_pos
    simpa [U64] using this
  exact ⟨pow_floorLog2Aux_le 64 h1, lt_pow_floorLog2Aux 64 h2⟩

/-- Witness for the amended C2 at bitCount 9 (bitmask 15, shift 3). -/
theorem c2_shift_size_amended_witness :
    2 ^ floorLog2 (bitmask 9) ≤ bitmask 9 ∧
      bitmask 9 < 2 ^ (floorLog2 (bitmask 9) + 1) :=
  c2_shift_size_amended 9 (by decide) (by decide)

/-- Claim C6 fails on the code: NextPowerOfTwo lacks the `i |= i >> 32`
spreading step a 64-bit value needs, so at 2^32 + 1 it returns
2^33 − 1 = 8589934591 — not a power of two — instead of the least power
of two greater than or equal to the input, 2^33.  This contradicts the
function's own documentation comment. -/
theorem c6_next_power_of_two_bug :
    NextPowerOfTwo 4294967297 = 8589934591 ∧
      (2 : Nat) ^ 32 < 4294967297 ∧ 4294967297 ≤ 2 ^ 33 ∧
      NextPowerOfTwo 4294967297 ≠ 2 ^ 33 := by
  decide

/-- Claim C8 — construction clamps but never rounds: both constructors
store exactly max(1, requested) for both counts; in particular requested
(0,0) and (2,0) give hash count 1, and a bit count of 1000 is stored as
1000, not rounded to a power of two. -/
theorem c8_construction_clamps (bc hc fnTok : Nat) (bytes : List Nat) :
    (NewFilter bc hc fnTok).BitCount = max 1 bc ∧
    (NewFilter bc hc fnTok).HashCount = max 1 hc ∧
    (NewFilterFromBloomBytes bc hc bytes fnTok).BitCount = max 1 bc ∧
    (NewFilterFromBloomBytes bc hc bytes fnTok).HashCount = max 1 hc ∧
    (NewFilter 0 0 fnTok).HashCount = 1 ∧
    (NewFilter 2 0 fnTok).HashCount = 1 ∧
    (NewFilter 1000 4 fnTok).BitCount = 1000 := by
  refine ⟨?_, ?_, ?_, ?_, rfl, rfl, rfl⟩ <;>
    simp [NewFilter, NewFilterFromBloomBytes, Filter.BitCount,
      Filter.HashCount, maxU_eq_max]

/-- Claim C3 — union/intersect compatibility checking: the single
reported error is chosen by checking hash-function identity first, then
hash count, then bit count; on any error the receiver is returned
unchanged; on full compatibility no error is reported and the receiver's
bits become the bitwise OR (respectively AND) of the two bit vectors. -/
theorem c3_union_intersect_compatibility (f other : Filter)
    (hn : f.bitSet.n = f.bitCount) (hn' : other.bitSet.n = other.bitCount) :
    (f.function ≠ other.function →
      f.Union other = (some BloomError.incompatibleHashFunctions, f) ∧
      f.Intersect other = (some BloomError.incompatibleHashFunctions, f)) ∧
    (f.function = other.function → f.hashCount ≠ other.hashCount →
      f.Union other = (some BloomError.incompatibleHashCount, f) ∧
      f.Intersect other = (some BloomError.incompatibleHashCount, f)) ∧
    (f.function = other.function → f.hashCount = other.hashCount →
      f.bitCount ≠ other.bitCount →
      f.Union other = (some BloomError.incompatibleBitCount, f) ∧
      f.Intersect other = (some BloomError.incompatibleBitCount, f)) ∧
    (f.function = other.function → f.hashCount = other.hashCount →
      f.bitCount = other.bitCount →
      f.Union other =
        (none, { f with bitSet := ⟨f.bitSet.n,
          f.bitSet.bits ||| other.bitSet.bits⟩ }) ∧
      f.Intersect other =
        (none, { f with bitSet := ⟨f.bitSet.n,
          f.bitSet.bits &&& other.bitSet.bits⟩ })) := by
  refine ⟨?_, ?_, ?_, ?_⟩
  · intro hfn
    constructor <;>
      simp [Filter.Union, Filter.Intersect, Filter.checkCompatibility, hfn]
  · intro hfn hhc
    have h1 : ¬ f.function ≠ other.function := by simp [hfn]
    constructor <;>
      simp [Filter.Union, Filter.Intersect, Filter.checkCompatibility,
        h1, hhc]
  · intro hfn hhc hbc
    have h1 : ¬ f.function ≠ other.function := by simp [hfn]
    have h2 : ¬ f.hashCount ≠ other.hashCount := by simp [hhc]
    constructor <;>
      simp [Filter.Union, Filter.Intersect, Filter.checkCompatibility,
        h1, h2, hbc]
  · intro hfn hhc hbc
    have h1 : ¬ f.function ≠ other.function := by simp [hfn]
    have h2 : ¬ f.hashCount ≠ other.hashCount := by simp [hhc]
    have h3 : ¬ f.bitCount ≠ other.bitCount := by simp [hbc]
    have hnn : f.bitSet.n = other.bitSet.n := by rw [hn, hn', hbc]
    constructor <;>
      simp [Filter.Union, Filter.Intersect, Filter.checkCompatibility,
        BitSet.union, BitSet.intersect, h1, h2, h3, hnn]

/-- Witness for C3 at concrete filters: a hash-function mismatch between
two otherwise identical 8-bit filters reports the hash-function error
from both Union and Intersect, leaving the receiver unchanged, and two
fully compatible filters combine without error. -/
theorem c3_union_intersect_compatibility_witness :
    ((NewFilter 8 2 0).function ≠ (NewFilter 8 2 1).function →
      (NewFilter 8 2 0).Union (NewFilter 8 2 1) =
        (some BloomError.incompatibleHashFunctions, NewFilter 8 2 0) ∧
      (NewFilter 8 2 0).Intersect (NewFilter 8 2 1) =
        (some BloomError.incompatibleHashFunctions, NewFilter 8 2 0)) ∧
    ((NewFilter 8 2 0).function = (NewFilter 8 2 1).function →
      (NewFilter 8 2 0).hashCount ≠ (NewFilter 8 2 1).hashCount →
      (NewFilter 8 2 0).Union (NewFilter 8 2 1) =
        (some BloomError.incompatibleHashCount, NewFilter 8 2 0) ∧
      (NewFilter 8 2 0).Intersect (NewFilter 8 2 1) =
        (some BloomError.incompatibleHashCount, NewFilter 8 2 0)) ∧
    ((NewFilter 8 2 0).function = (NewFilter 8 2 1).function →
      (NewFilter 8 2 0).hashCount = (NewFilter 8 2 1).hashCount →
      (NewFilter 8 2 0).bitCount ≠ (NewFilter 8 2 1).bitCount →
      (NewFilter 8 2 0).Union (NewFilter 8 2 1) =
        (some BloomError.incompatibleBitCount, NewFilter 8 2 0) ∧
      (NewFilter 8 2 0).Intersect (NewFilter 8 2 1) =
        (some BloomError.incompatibleBitCount, NewFilter 8 2 0)) ∧
    ((NewFilter 8 2 0).function = (NewFilter 8 2 1).function →
      (NewFilter 8 2 0).hashCount = (NewFilter 8 2 1).hashCount →
      (NewFilter 8 2 0).bitCount = (NewFilter 8 2 1).bitCount →
      (NewFilter 8 2 0).Union (NewFilter 8 2 1) =
        (none, { NewFilter 8 2 0 with
          bitSet := ⟨(NewFilter 8 2 0).bitSet.n,
            (NewFilter 8 2 0).bitSet.bits |||
              (NewFilter 8 2 1).bitSet.bits⟩ }) ∧
      (NewFilter 8 2 0).Intersect (NewFilter 8 2 1) =
        (none, { NewFilter 8 2 0 with
          bitSet := ⟨(NewFilter 8 2 0).bitSet.n,
            (NewFilter 8 2 0).bitSet.bits &&&
              (NewFilter 8 2 1).bitSet.bits⟩ })) :=
  c3_union_intersect_compatibility (NewFilter 8 2 0) (NewFilter 8 2 1)
    (by decide) (by decide)

end Claims2

section BytesLemmas

theorem rev8_lt (b : Nat) : reverse8 b < 256 := by
  simp only [reverse8]
  have h0 : b >>> 0 % 2 < 2 := Nat.mod_lt _ (by omega)
  have h1 : b >>> 1 % 2 < 2 := Nat.mod_lt _ (by omega)
  have h2 : b >>> 2 % 2 < 2 := Nat.mod_lt _ (by omega)
  have h3 : b >>> 3 % 2 < 2 := Nat.mod_lt _ (by omega)
  have h4 : b >>> 4 % 2 < 2 := Nat.mod_lt _ (by omega)
  have h5 : b >>> 5 % 2 < 2 := Nat.mod_lt _ (by omega)
  have h6 : b >>> 6 % 2 < 2 := Nat.mod_lt _ (by omega)
  have h7 : b >>> 7 % 2 < 2 := Nat.mod_lt _ (by omega)
  omega

set_option maxRecDepth 4096 in
theorem rev8_invol : ∀ b, b < 256 → reverse8 (reverse8 b) = b := by
  decide

theorem encodeBits_length : ∀ (L bits : Nat), (encodeBits bits L).length = L := by
  intro L
  induction L with
  | zero => intro bits; rfl
  | succ L ih => intro bits; simp [encodeBits, ih]

theorem decode_encode : ∀ (L bits : Nat),
    decodeBytes (encodeBits bits L) = bits % 2 ^ (8 * L) := by
  intro L
  induction L with
  | zero => intro bits; simp [encodeBits, decodeBytes, Nat.mod_one]
  | succ L ih =>
    intro bits
    simp only [encodeBits, decodeBytes]
    rw [Nat.mod_eq_of_lt (rev8_lt _), rev8_invol _ (Nat.mod_lt _ (by omega))]
    rw [ih (bits >>> 8)]
    rw [Nat.shiftRight_eq_div_pow]
    have h1 : (2 : Nat) ^ 8 = 256 := by norm_num
    rw [h1, ← Nat.mod_mul]
    congr 1
    rw [← h1, ← pow_add]
    congr 1
    omega

theorem maxU_one_eq {x : Nat} (h : 1 ≤ x) : maxU 1 x = x := by
  simp only [maxU]
  split <;> omega

end BytesLemmas

section Claims3

/-- Claim C9 — copy/bytes round-trip: for every well-formed filter
(counts at least 1, bit-vector length equal to bitCount, stored bits
within the byte padding), Copy — which routes through Bytes and
NewFilterFromBloomBytes — reproduces the filter exactly: same bitCount,
hashCount and hash-function token, and Test answers identically for
every environment and item.  In this pure model the copy is a value of
its own, so later Adds on it cannot affect the original. -/
theorem c9_copy_roundtrip (f : Filter) (hb1 : 1 ≤ f.bitCount)
    (hh1 : 1 ≤ f.hashCount) (hn : f.bitSet.n = f.bitCount)
    (hbits : f.bitSet.bits < 2 ^ (8 * ((f.bitCount + 7) / 8))) :
    f.Copy = f ∧
    f.Copy.bitCount = f.bitCount ∧ f.Copy.hashCount = f.hashCount ∧
    f.Copy.function = f.function ∧
    ∀ (α : Type) (env : Nat → α → Nat → Nat) (data : α) (vF lF : Nat),
      Filter.Test env data vF lF f.Copy = Filter.Test env data vF lF f := by
  have hcopy : f.Copy = f := by
    obtain ⟨bc, hc, ⟨n, bits⟩, fn⟩ := f
    simp only at hb1 hh1 hn hbits
    subst hn
    simp only [Filter.Copy, NewFilterFromBloomBytes, Filter.Bytes,
      BitSet.bytes, BitSet.fromBytes, maxU_one_eq hb1, maxU_one_eq hh1]
    have hlen : (encodeBits bits ((n + 7) / 8)).take ((n + 7) / 8) =
        encodeBits bits ((n + 7) / 8) :=
      List.take_of_length_le (by rw [encodeBits_length])
    rw [hlen, decode_encode, Nat.mod_eq_of_lt hbits]
  exact ⟨hcopy, by rw [hcopy], by rw [hcopy], by rw [hcopy],
    fun α env data vF lF => by rw [hcopy]⟩

/-- Witness for C9 at a concrete 9-bit filter holding bit pattern 5. -/
theorem c9_copy_roundtrip_witness :
    Filter.Copy ⟨9, 2, ⟨9, 5⟩, 0⟩ = (⟨9, 2, ⟨9, 5⟩, 0⟩ : Filter) ∧
    (Filter.Copy ⟨9, 2, ⟨9, 5⟩, 0⟩).bitCount = (9 : Nat) ∧
    (Filter.Copy ⟨9, 2, ⟨9, 5⟩, 0⟩).hashCount = (2 : Nat) ∧
    (Filter.Copy ⟨9, 2, ⟨9, 5⟩, 0⟩).function = (0 : Nat) ∧
    ∀ (α : Type) (env : Nat → α → Nat → Nat) (data : α) (vF lF : Nat),
      Filter.Test env data vF lF (Filter.Copy ⟨9, 2, ⟨9, 5⟩, 0⟩) =
        Filter.Test env data vF lF ⟨9, 2, ⟨9, 5⟩, 0⟩ :=
  c9_copy_roundtrip ⟨9, 2, ⟨9, 5⟩, 0⟩ (by decide) (by decide) (by decide)
    (by decide)

end Claims3

section FPPLemmas

/-- What the source expression of FPP actually computes: the inner
exponent collapses to −log 2 for any positive m and n, so the result is
(1/2) raised to the real power (m/n)·log 2 — the filter's hashCount
never enters. -/
theorem fpp_eq_half_rpow (f : Filter) (n : Nat) (h1 : 1 ≤ f.bitCount)
    (h2 : 1 ≤ n) :
    Filter.FPP f n =
      (1 / 2 : ℝ) ^ (((f.bitCount : ℝ) / (n : ℝ)) * Real.log 2) := by
  have hm : (0 : ℝ) < (f.bitCount : ℝ) := by exact_mod_cast h1
  have hn : (0 : ℝ) < (n : ℝ) := by exact_mod_cast h2
  simp only [Filter.FPP]
  have hinner : (((f.bitCount : ℝ) / (n : ℝ)) * Real.log 2) *
      ((n : ℝ) / (f.bitCount : ℝ)) = Real.log 2 := by
    field_simp
  rw [hinner, Real.exp_neg, Real.exp_log (by norm_num : (0 : ℝ) < 2)]
  norm_num

end FPPLemmas

section Claims4

/-- Counterexample to claim C5 as stated: at bitCount 1024, hashCount 1
and n = 1, the code's FPP is (1/2)^(1024·log 2) < 2^(-11), while the
spec's closed form (1 − e^(−k·n/m))^k with k = hashCount = 1 equals
1 − e^(−1/1024) > 2^(-11); the two differ because the code substitutes
the real-valued optimal count (m/n)·log 2 for the filter's hashCount. -/
theorem c5_fpp_counterexample :
    Filter.FPP (NewFilter 1024 1 0) 1 ≠ specFPPFormula 1024 1 1 := by
  have hbc : (NewFilter 1024 1 0).bitCount = 1024 := rfl
  have hL := Real.log_two_gt_d9
  have hform := fpp_eq_half_rpow (NewFilter 1024 1 0) 1 (by decide) (by decide)
  have hexp : (((NewFilter 1024 1 0).bitCount : ℝ) / ((1 : Nat) : ℝ)) =
      1024 := by
    rw [hbc]
    norm_num
  rw [hform, hexp]
  have h11 : (11 : ℝ) < 1024 * Real.log 2 := by
    have := mul_lt_mul_of_pos_left hL (by norm_num : (0 : ℝ) < 1024)
    nlinarith
  have hub : (1 / 2 : ℝ) ^ ((1024 : ℝ) * Real.log 2) < 1 / 2048 := by
    have hstep : (1 / 2 : ℝ) ^ ((1024 : ℝ) * Real.log 2) <
        (1 / 2 : ℝ) ^ (11 : ℝ) :=
      Real.rpow_lt_rpow_of_exponent_gt (by norm_num) (by norm_num) h11
    have heq : (1 / 2 : ℝ) ^ (11 : ℝ) = 1 / 2048 := by
      rw [show (11 : ℝ) = ((11 : ℕ) : ℝ) by norm_num, Real.rpow_natCast]
      norm_num
    linarith
  have hrhs : specFPPFormula 1024 1 1 = 1 - Real.exp (-(1 / 1024)) := by
    simp only [specFPPFormula]
    push_cast
    rw [Real.rpow_one]
    norm_num
  have hlb : (1 / 2048 : ℝ) < 1 - Real.exp (-(1 / 1024)) := by
    have hx : (1 / 1024 : ℝ) + 1 < Real.exp (1 / 1024) :=
      Real.add_one_lt_exp (by norm_num)
    have hcp : Real.exp (-(1 / 1024 : ℝ)) = (Real.exp (1 / 1024))⁻¹ :=
      Real.exp_neg (1 / 1024)
    have hpos : (0 : ℝ) < 1 + 1 / 1024 := by norm_num
    have hinv : (Real.exp (1 / 1024 : ℝ))⁻¹ < (1 + 1 / 1024 : ℝ)⁻¹ :=
      inv_strictAnti₀ hpos (by linarith)
    have hval : ((1 : ℝ) + 1 / 1024)⁻¹ = 1024 / 1025 := by norm_num
    rw [hcp]
    rw [hval] at hinv
    linarith
  rw [hrhs]
  exact ne_of_lt (by linarith)

/-- Claim C5 as amended: for every filter with bitCount ≥ 1 and every
n ≥ 1, FPP(n) computes (1 − e^(−log 2))^((m/n)·log 2), that is
(1/2)^((m/n)·log 2), the closed form with the hash count replaced by the
real-valued optimal (m/n)·log 2; the filter's stored hashCount is not
used. -/
theorem c5_fpp_closed_form (f : Filter) (n : Nat) (h1 : 1 ≤ f.bitCount)
    (h2 : 1 ≤ n) :
    Filter.FPP f n =
      (1 / 2 : ℝ) ^ (((f.bitCount : ℝ) / (n : ℝ)) * Real.log 2) :=
  fpp_eq_half_rpow f n h1 h2

/-- Witness for the amended C5 at the 2-bit, 1-hash filter and n = 1. -/
theorem c5_fpp_closed_form_witness :
    Filter.FPP (NewFilter 2 1 0) 1 =
      (1 / 2 : ℝ) ^ ((((NewFilter 2 1 0).bitCount : ℝ) / ((1 : Nat) : ℝ)) *
        Real.log 2) :=
  c5_fpp_closed_form (NewFilter 2 1 0) 1 (by decide) (by decide)

end Claims4

end GoBloom
